import Mathlib

/-!
Verification of the `ga` generic evolutionary-optimization engine.

This file gives a shallow embedding of the engine found in the repository:

* the current engine (the class `ga::algorithm` written with C++20 concepts,
  supporting both the single-evaluation and the multi-evaluation problem
  contracts, with buffer-then-evaluate iteration and runtime size checks), and
* the legacy engine (the older `ga::algorithm` in `algorithm.hpp`, restricted
  to single evaluation, whose `iterate` evaluates each child as soon as it is
  produced and whose `recombine` returns exactly two children).

Modelling conventions:

* `std::size_t` values are modelled as `Nat`; the engine never subtracts past
  zero on reachable states since construction enforces `elite_count < N`.
* The random generator is modelled as an infinite stream of raw draws plus a
  position; `std::uniform_int_distribution(0, n-1)` applied to one generator
  draw is modelled as one raw draw taken modulo `n`.  Every draw advances the
  position, so draw order is observable, as in the C++ code.
* Problem operations (`mutate`, `recombine`, `evaluate`) receive and return
  the generator state explicitly, since in C++ they receive `generator_type&`.
* The multi-evaluation `evaluate` receives the new individuals (as const),
  the population vector `population_` by non-const reference, `elite_count`,
  and the generator; it returns the emitted fitness list, the (possibly
  mutated) population vector, and the generator.  The constructor check
  `population_.size() > 0` in the source only makes sense because the callee
  may append through that reference, so the model keeps this capability.
* C++ exceptions are modelled with explicit error values.  A failed
  construction returns `Except.error`; a failed `iterate` returns the thrown
  error together with the state the object is left in.
* `std::partial_sort(b, b + k, e, cmp)` guarantees that the first `k`
  elements are the `k` smallest under `cmp`, in sorted order; the order of
  the tail is unspecified by the C++ standard.  We model it as a full stable
  insertion sort, which satisfies the same contract; no theorem below
  depends on the order of the tail.
* The selection-variation `while` loop can run forever when `recombine`
  returns no children, so it takes an explicit fuel argument and returns
  `none` when the fuel is exhausted; `none` models divergence.
-/

/-- Uniform random bit generator: an opaque stream of raw draws together with
the current position.  Each draw advances the position, mirroring the stateful
`generator_type` of the source. -/
structure urbg where
  seq : Nat → Nat
  pos : Nat

/-- One application of `std::uniform_int_distribution<std::size_t>(0, n - 1)`
to the generator, as performed by `algorithm::sample_from`: one raw draw,
reduced modulo `n`. -/
def sample_from (n : Nat) (g : urbg) : Nat × urbg :=
  (g.seq g.pos % n, ⟨g.seq, g.pos + 1⟩)

/-- The record `ga::solution` from `type.hpp`: a genotype paired with its
fitness. -/
structure solution (I F : Type) where
  x : I
  fitness : F
deriving DecidableEq, Repr

instance {I F : Type} [Inhabited I] [Inhabited F] : Inhabited (solution I F) :=
  ⟨⟨default, default⟩⟩

section Engine

variable {I F : Type}

/-- The comparator used by `sort_population`:
`a.fitness < b.fitness` as a strict weak order; we use the reflexive closure
so that a stable full sort models `std::partial_sort` with the strict
comparator. -/
def fitness_le [LinearOrder F] (a b : solution I F) : Prop :=
  a.fitness ≤ b.fitness

instance [LinearOrder F] : DecidableRel (@fitness_le I F _) :=
  fun a b => inferInstanceAs (Decidable (a.fitness ≤ b.fitness))

instance [LinearOrder F] : IsTotal (solution I F) fitness_le :=
  ⟨fun a b => le_total a.fitness b.fitness⟩

instance [LinearOrder F] : IsTrans (solution I F) fitness_le :=
  ⟨fun _ _ _ hab hbc => le_trans hab hbc⟩

/-- Model of `algorithm::sort_population`: the source calls
`std::partial_sort(begin, begin + elite_count, end, fitness <)`, which places
the `elite_count` smallest solutions at the front in ascending fitness order
and leaves the tail in unspecified order.  We model it as a full stable sort
by fitness, which satisfies the same contract for the prefix; the parameter
`k` mirrors `elite_count_` and is not needed by the full-sort model. -/
def sort_population [LinearOrder F] (k : Nat) (pop : List (solution I F)) :
    List (solution I F) :=
  let _ := k
  List.insertionSort fitness_le pop

/-- Bounds-safe indexing `population_[i]`.  The engine only ever indexes with
a drawn value `i = raw % size`, which is in bounds for a non-empty
population, so the default value is never used on reachable states. -/
def solAt [Inhabited I] [Inhabited F] (pop : List (solution I F)) (i : Nat) :
    solution I F :=
  pop.getD i default

/-- The `binary_tournament` lambda of `algorithm::iterate`: draw two indices
`i` then `j` from the uniform distribution over the population, and return
`population_[i].fitness < population_[j].fitness ? population_[i].x
: population_[j].x`. -/
def binary_tournament [LinearOrder F] [Inhabited I] [Inhabited F]
    (pop : List (solution I F)) (g : urbg) : I × urbg :=
  let n := pop.length
  let (i, g1) := sample_from n g
  let (j, g2) := sample_from n g1
  (if (solAt pop i).fitness < (solAt pop j).fitness then (solAt pop i).x
   else (solAt pop j).x, g2)

/-- A problem satisfying the concept `meta::single_evaluation_problem`:
`evaluate` maps one individual (and the generator) to one fitness. -/
structure single_evaluation_problem (I F : Type) where
  mutate : I → urbg → I × urbg
  recombine : I → I → urbg → List I × urbg
  evaluate : I → urbg → F × urbg

/-- A problem satisfying the concept `meta::multi_evaluation_problem`:
`evaluate(new_individuals, individuals, elite_count, fit_out, g)` receives
the batch of new individuals (as const), the population vector by non-const
reference, the elite count and the generator, and emits fitnesses through
`fit_out`.  The model returns the emitted fitness list, the possibly mutated
population vector, and the generator. -/
structure multi_evaluation_problem (I F : Type) where
  mutate : I → urbg → I × urbg
  recombine : I → I → urbg → List I × urbg
  evaluate : List I → List (solution I F) → Nat → urbg →
    List F × List (solution I F) × urbg

/-- The concept `meta::any_problem`: either evaluation contract.  The engine
dispatches on the shape with `if constexpr`. -/
inductive any_problem (I F : Type) where
  | single : single_evaluation_problem I F → any_problem I F
  | multi : multi_evaluation_problem I F → any_problem I F

/-- The `mutate` operation of either problem shape. -/
def any_problem.mutate : any_problem I F → I → urbg → I × urbg
  | .single sp => sp.mutate
  | .multi mp => mp.mutate

/-- The `recombine` operation of either problem shape. -/
def any_problem.recombine : any_problem I F → I → I → urbg → List I × urbg
  | .single sp => sp.recombine
  | .multi mp => mp.recombine

/-- Mutating a list of individuals in order, threading the generator; used to
describe the effect of the inner child loop. -/
def mutate_all (mutf : I → urbg → I × urbg) : List I → urbg → List I × urbg
  | [], g => ([], g)
  | c :: cs, g =>
    let (c', g') := mutf c g
    let (rest, g'') := mutate_all mutf cs g'
    (c' :: rest, g'')

/-- The inner `for (auto& child : children)` loop of the current engine
(`type.hpp`): mutate each child, append it to `next_population_`, and break
as soon as the buffer reaches the target size `expected_size - elite_count_`;
the remaining children are dropped. -/
def push_children (mutf : I → urbg → I × urbg) (target : Nat) :
    List I → List I → urbg → List I × urbg
  | [], acc, g => (acc, g)
  | c :: cs, acc, g =>
    let (c', g') := mutf c g
    let acc' := acc ++ [c']
    if acc'.length = target then (acc', g')
    else push_children mutf target cs acc' g'

/-- The selection-variation `while` loop of the current engine: while the
buffer is below the target, run two binary tournaments, recombine the two
parents, and push the (mutated) children.  `fuel` bounds the number of loop
iterations; `none` models non-termination of the C++ loop. -/
def variation_loop [LinearOrder F] [Inhabited I] [Inhabited F]
    (mutf : I → urbg → I × urbg) (recomb : I → I → urbg → List I × urbg)
    (pop : List (solution I F)) (target : Nat) :
    Nat → List I → urbg → Option (List I × urbg)
  | 0, acc, g => if acc.length < target then none else some (acc, g)
  | fuel + 1, acc, g =>
    if acc.length < target then
      let (x1, g1) := binary_tournament pop g
      let (x2, g2) := binary_tournament pop g1
      let (children, g3) := recomb x1 x2 g2
      let (acc', g4) := push_children mutf target children acc g3
      variation_loop mutf recomb pop target fuel acc' g4
    else some (acc, g)

/-- The single-evaluation pass
`for (const auto& individual : buf) push_back(evaluate(individual, g))`:
one fitness per individual, in buffer order, threading the generator. -/
def evaluate_all (ev : I → urbg → F × urbg) : List I → urbg → List F × urbg
  | [], g => ([], g)
  | x :: xs, g =>
    let (f, g') := ev x g
    let (rest, g'') := evaluate_all ev xs g'
    (f :: rest, g'')

/-- The errors thrown by the engine: `std::invalid_argument` with message
invalid elite_count at construction, and `std::runtime_error` with message
evaluation step has changed expected population size. -/
inductive gaError where
  | invalid_argument
  | runtime_error
deriving DecidableEq, Repr

/-- The observable state of a constructed `ga::algorithm` object: the members
`population_` and `generator_` (the buffers `next_population_` and
`next_fitness_` are empty between successful calls). -/
structure algorithmState (I F : Type) where
  population : List (solution I F)
  generator : urbg

/-- Outcome of one `iterate()` call: either a normal return or a thrown
error, together with the state the object is left in. -/
inductive execResult (I F : Type) where
  | ok : algorithmState I F → execResult I F
  | err : gaError → algorithmState I F → execResult I F

/-- The evaluation step of `iterate`, dispatched on the problem shape by
`if constexpr`: single evaluation evaluates each buffered individual in
order and leaves the population untouched; multi evaluation makes one batch
call receiving the buffer, the population vector and the elite count. -/
def evaluation_phase (p : any_problem I F) (buf : List I)
    (pop : List (solution I F)) (k : Nat) (g : urbg) :
    List F × List (solution I F) × urbg :=
  match p with
  | .single sp =>
    let (fits, g') := evaluate_all sp.evaluate buf g
    (fits, pop, g')
  | .multi mp => mp.evaluate buf pop k g

/-- The tail of `iterate`: the size checks, then the splice of the new
solutions over `population_[elite_count .. N)` and the re-sort.  On a check
failure the engine throws; the population member then holds whatever the
evaluation step left in it and nothing has been spliced. -/
def finish_iterate [LinearOrder F] (n k : Nat) (pop' : List (solution I F))
    (buf : List I) (fits : List F) (g : urbg) : execResult I F :=
  if pop'.length ≠ n ∨ buf.length ≠ n - k ∨ fits.length ≠ n - k then
    .err .runtime_error ⟨pop', g⟩
  else
    .ok ⟨sort_population k (pop'.take k ++ List.zipWith solution.mk buf fits), g⟩

/-- The current engine `algorithm::iterate` (`type.hpp`): run the
selection-variation loop to fill `next_population_`, evaluate the buffer
(single or multi), check the sizes, splice beyond the elite prefix and
re-sort.  `none` models a non-terminating variation loop. -/
def iterate [LinearOrder F] [Inhabited I] [Inhabited F] (p : any_problem I F)
    (k fuel : Nat) (st : algorithmState I F) : Option (execResult I F) :=
  let n := st.population.length
  match variation_loop p.mutate p.recombine st.population (n - k) fuel []
      st.generator with
  | none => none
  | some (buf, g1) =>
    let (fits, pop', g2) := evaluation_phase p buf st.population k g1
    some (finish_iterate n k pop' buf fits g2)

/-- The initial evaluation performed by the constructor: single evaluation
evaluates each initial individual in order; multi evaluation is called once
with the initial individuals, the (empty) population member, elite count `0`
and the generator. -/
def initial_evaluation (p : any_problem I F) (pop0 : List I) (g : urbg) :
    List F × List (solution I F) × urbg :=
  match p with
  | .single sp =>
    let (fits, g') := evaluate_all sp.evaluate pop0 g
    (fits, [], g')
  | .multi mp => mp.evaluate pop0 [] 0 g

/-- The constructor of `ga::algorithm` (also reachable through
`ga::make_algorithm`): reject `elite_count >= population.size()` with
`std::invalid_argument`; evaluate the initial population; reject a fitness
count mismatch or a population appended to by the evaluation with
`std::runtime_error`; otherwise assemble the solutions and establish the
sorted-prefix invariant. -/
def make_algorithm [LinearOrder F] (p : any_problem I F) (pop0 : List I)
    (k : Nat) (g : urbg) : Except gaError (algorithmState I F) :=
  if pop0.length ≤ k then .error .invalid_argument
  else
    let (fits, popOut, g1) := initial_evaluation p pop0 g
    if fits.length ≠ pop0.length ∨ popOut.length > 0 then
      .error .runtime_error
    else
      .ok ⟨sort_population k (List.zipWith solution.mk pop0 fits), g1⟩

/-- Observable projection of an `iterate` outcome: whether the call returned
normally, and the population the object holds afterwards.  Used to compare
outcomes without comparing generator streams. -/
def observe : Option (execResult I F) → Option (Bool × List (solution I F))
  | none => none
  | some (.ok st) => some (true, st.population)
  | some (.err _ st) => some (false, st.population)

end Engine

namespace legacy

variable {I F : Type}

/-- A problem satisfying the legacy `meta::Problem` concept in
`ga/meta.hpp`: `recombine` must return exactly
`std::array<individual_type, 2>`, and `evaluate` maps one individual to one
fitness. -/
structure problem (I F : Type) where
  mutate : I → urbg → I × urbg
  recombine : I → I → urbg → (I × I) × urbg
  evaluate : I → urbg → F × urbg

/-- The legacy problem viewed through the current single-evaluation
contract: the two-element array of children becomes a two-element list. -/
def to_single (p : problem I F) : single_evaluation_problem I F :=
  { mutate := p.mutate
    recombine := fun a b g =>
      let ((c1, c2), g') := p.recombine a b g
      ([c1, c2], g')
    evaluate := p.evaluate }

/-- The inner child loop of the legacy `algorithm::iterate`
(`algorithm.hpp`): mutate the child, evaluate it at once, push the solution
into `next_population_`, and break when the buffer is full. -/
def push_children (mutf : I → urbg → I × urbg) (ev : I → urbg → F × urbg)
    (target : Nat) :
    List I → List (solution I F) → urbg → List (solution I F) × urbg
  | [], acc, g => (acc, g)
  | c :: cs, acc, g =>
    let (c', g1) := mutf c g
    let (f, g2) := ev c' g1
    let acc' := acc ++ [⟨c', f⟩]
    if acc'.length = target then (acc', g2)
    else push_children mutf ev target cs acc' g2

/-- The selection-variation `while` loop of the legacy engine: identical
tournament selection, recombination into exactly two children, then the
mutate-evaluate-push inner loop. -/
def variation_loop [LinearOrder F] [Inhabited I] [Inhabited F]
    (mutf : I → urbg → I × urbg) (ev : I → urbg → F × urbg)
    (recomb : I → I → urbg → (I × I) × urbg)
    (pop : List (solution I F)) (target : Nat) :
    Nat → List (solution I F) → urbg → Option (List (solution I F) × urbg)
  | 0, acc, g => if acc.length < target then none else some (acc, g)
  | fuel + 1, acc, g =>
    if acc.length < target then
      let (x1, g1) := binary_tournament pop g
      let (x2, g2) := binary_tournament pop g1
      let ((c1, c2), g3) := recomb x1 x2 g2
      let (acc', g4) := push_children mutf ev target [c1, c2] acc g3
      variation_loop mutf ev recomb pop target fuel acc' g4
    else some (acc, g)

/-- The legacy `algorithm::iterate`: run the loop, move the new solutions
over `population_[elite_count .. N)`, and re-sort.  There are no runtime
size checks in the legacy engine, so a terminating call always returns
normally. -/
def iterate [LinearOrder F] [Inhabited I] [Inhabited F] (p : problem I F)
    (k fuel : Nat) (st : algorithmState I F) : Option (execResult I F) :=
  let n := st.population.length
  match variation_loop p.mutate p.evaluate p.recombine st.population (n - k)
      fuel [] st.generator with
  | none => none
  | some (next, g1) =>
    some (.ok ⟨sort_population k (st.population.take k ++ next), g1⟩)

end legacy

section Traced

variable {I F : Type}

/-- Events recording the observable calls `iterate` makes on the problem:
an individual being pushed into the next-generation buffer, a
single-evaluation call on one individual, and the one batch evaluation call
with the exact arguments it receives. -/
inductive trace_event (I F : Type) where
  | pushed : I → trace_event I F
  | evaluated : I → trace_event I F
  | batch_evaluated : List I → List (solution I F) → Nat → trace_event I F
deriving DecidableEq

/-- `push_children`, instrumented to record each push. -/
def push_children_tr (mutf : I → urbg → I × urbg) (target : Nat) :
    List I → List I → urbg → List I × urbg × List (trace_event I F)
  | [], acc, g => (acc, g, [])
  | c :: cs, acc, g =>
    let (c', g') := mutf c g
    let acc' := acc ++ [c']
    if acc'.length = target then (acc', g', [.pushed c'])
    else
      let (res, g'', tr) := push_children_tr mutf target cs acc' g'
      (res, g'', .pushed c' :: tr)

/-- `variation_loop`, instrumented to record each push. -/
def variation_loop_tr [LinearOrder F] [Inhabited I] [Inhabited F]
    (mutf : I → urbg → I × urbg) (recomb : I → I → urbg → List I × urbg)
    (pop : List (solution I F)) (target : Nat) :
    Nat → List I → urbg → Option (List I × urbg × List (trace_event I F))
  | 0, acc, g => if acc.length < target then none else some (acc, g, [])
  | fuel + 1, acc, g =>
    if acc.length < target then
      let (x1, g1) := binary_tournament pop g
      let (x2, g2) := binary_tournament pop g1
      let (children, g3) := recomb x1 x2 g2
      let (acc', g4, tr1) := push_children_tr mutf target children acc g3
      match variation_loop_tr mutf recomb pop target fuel acc' g4 with
      | none => none
      | some (out, g', tr2) => some (out, g', tr1 ++ tr2)
    else some (acc, g, [])

/-- `evaluate_all`, instrumented to record each single-evaluation call. -/
def evaluate_all_tr (ev : I → urbg → F × urbg) :
    List I → urbg → List F × urbg × List (trace_event I F)
  | [], g => ([], g, [])
  | x :: xs, g =>
    let (f, g') := ev x g
    let (rest, g'', tr) := evaluate_all_tr ev xs g'
    (f :: rest, g'', .evaluated x :: tr)

/-- The current `iterate`, instrumented with the trace of buffer pushes and
evaluation calls.  The multi branch records the exact arguments handed to
the batch `evaluate`: the full buffer, the full population member
`population_`, and `elite_count_`. -/
def iterate_tr [LinearOrder F] [Inhabited I] [Inhabited F]
    (p : any_problem I F) (k fuel : Nat) (st : algorithmState I F) :
    Option (execResult I F × List (trace_event I F)) :=
  let n := st.population.length
  match variation_loop_tr p.mutate p.recombine st.population (n - k) fuel []
      st.generator with
  | none => none
  | some (buf, g1, tr1) =>
    match p with
    | .single sp =>
      let (fits, g2, tr2) := evaluate_all_tr sp.evaluate buf g1
      some (finish_iterate n k st.population buf fits g2, tr1 ++ tr2)
    | .multi mp =>
      let (fits, pop', g2) := mp.evaluate buf st.population k g1
      some (finish_iterate n k pop' buf fits g2,
        tr1 ++ [.batch_evaluated buf st.population k])

end Traced

section LoopLemmas

variable {I F : Type}

theorem push_children_nil (mutf : I → urbg → I × urbg) (target : Nat)
    (acc : List I) (g : urbg) :
    push_children mutf target [] acc g = (acc, g) := rfl

/-- The inner child loop consumes children in order until the buffer reaches
the target: it mutates and appends exactly the first `target - acc.length`
children, in order, and drops the rest. -/
theorem push_children_spec (mutf : I → urbg → I × urbg) (target : Nat) :
    ∀ (cs acc : List I) (g : urbg), acc.length < target →
      push_children mutf target cs acc g =
        (acc ++ (mutate_all mutf (cs.take (target - acc.length)) g).1,
          (mutate_all mutf (cs.take (target - acc.length)) g).2)
  | [], acc, g, _ => by simp [push_children, mutate_all]
  | c :: cs, acc, g, h => by
    rcases hm : mutf c g with ⟨c', g'⟩
    have ht : target - acc.length = (target - (acc ++ [c']).length) + 1 := by
      simp only [List.length_append, List.length_cons, List.length_nil]
      omega
    rw [ht]
    simp only [push_children, hm, List.take_succ_cons, mutate_all]
    by_cases he : (acc ++ [c']).length = target
    · have h0 : target - (acc ++ [c']).length = 0 := by omega
      simp [he, h0, mutate_all]
    · have hlt : (acc ++ [c']).length < target := by
        simp only [List.length_append, List.length_cons, List.length_nil] at he ⊢
        omega
      rw [if_neg he, push_children_spec mutf target cs (acc ++ [c']) g' hlt]
      rcases hma : mutate_all mutf (cs.take (target - (acc ++ [c']).length)) g'
        with ⟨rest, g''⟩
      simp [hma]

theorem mutate_all_length (mutf : I → urbg → I × urbg) :
    ∀ (cs : List I) (g : urbg), (mutate_all mutf cs g).1.length = cs.length
  | [], _ => rfl
  | c :: cs, g => by
    rcases hm : mutf c g with ⟨c', g'⟩
    rcases hma : mutate_all mutf cs g' with ⟨rest, g''⟩
    have := mutate_all_length mutf cs g'
    rw [hma] at this
    simp [mutate_all, hm, hma, this]

theorem push_children_length (mutf : I → urbg → I × urbg) (target : Nat)
    (cs acc : List I) (g : urbg) (h : acc.length < target) :
    (push_children mutf target cs acc g).1.length =
      acc.length + min (target - acc.length) cs.length := by
  rw [push_children_spec mutf target cs acc g h]
  simp [mutate_all_length, List.length_take]

/-- When the buffer has already reached the target, the variation loop exits
at once without drawing from the generator. -/
theorem variation_loop_exit [LinearOrder F] [Inhabited I] [Inhabited F]
    (mutf : I → urbg → I × urbg) (recomb : I → I → urbg → List I × urbg)
    (pop : List (solution I F)) (target fuel : Nat) (acc : List I) (g : urbg)
    (h : ¬ acc.length < target) :
    variation_loop mutf recomb pop target fuel acc g = some (acc, g) := by
  cases fuel <;> simp [variation_loop, h]

/-- Whenever the variation loop returns, the buffer holds exactly `target`
individuals (given that it starts no larger than the target). -/
theorem variation_loop_exact [LinearOrder F] [Inhabited I] [Inhabited F]
    (mutf : I → urbg → I × urbg) (recomb : I → I → urbg → List I × urbg)
    (pop : List (solution I F)) (target : Nat) :
    ∀ (fuel : Nat) (acc : List I) (g : urbg) (out : List I) (g' : urbg),
      acc.length ≤ target →
      variation_loop mutf recomb pop target fuel acc g = some (out, g') →
      out.length = target
  | 0, acc, g, out, g', hle, h => by
    by_cases hlt : acc.length < target
    · simp [variation_loop, hlt] at h
    · simp only [variation_loop, if_neg hlt, Option.some.injEq, Prod.mk.injEq] at h
      rw [← h.1]
      omega
  | fuel + 1, acc, g, out, g', hle, h => by
    by_cases hlt : acc.length < target
    · simp only [variation_loop, if_pos hlt] at h
      rcases h1 : binary_tournament pop g with ⟨x1, g1⟩
      rcases h2 : binary_tournament pop g1 with ⟨x2, g2⟩
      rcases h3 : recomb x1 x2 g2 with ⟨children, g3⟩
      rcases h4 : push_children mutf target children acc g3 with ⟨acc', g4⟩
      rw [h1, h2, h3, h4] at h
      have hlen : acc'.length ≤ target := by
        have := push_children_length mutf target children acc g3 hlt
        rw [h4] at this
        simp at this
        omega
      exact variation_loop_exact mutf recomb pop target fuel acc' g4 out g'
        hlen h
    · simp only [variation_loop, if_neg hlt, Option.some.injEq, Prod.mk.injEq] at h
      rw [← h.1]
      omega

/-- If every recombination returns at least one child, the variation loop
terminates: fuel covering the number of missing slots suffices, since every
iteration buffers at least one new individual. -/
theorem variation_loop_total [LinearOrder F] [Inhabited I] [Inhabited F]
    (mutf : I → urbg → I × urbg) (recomb : I → I → urbg → List I × urbg)
    (pop : List (solution I F)) (target : Nat)
    (hne : ∀ a b g, (recomb a b g).1 ≠ []) :
    ∀ (fuel : Nat) (acc : List I) (g : urbg), acc.length ≤ target →
      target - acc.length ≤ fuel →
      ∃ out g', variation_loop mutf recomb pop target fuel acc g =
        some (out, g') ∧ out.length = target
  | 0, acc, g, hle, hfuel => by
    have hnlt : ¬ acc.length < target := by omega
    exact ⟨acc, g, variation_loop_exit mutf recomb pop target 0 acc g hnlt,
      by omega⟩
  | fuel + 1, acc, g, hle, hfuel => by
    by_cases hlt : acc.length < target
    · rcases h1 : binary_tournament pop g with ⟨x1, g1⟩
      rcases h2 : binary_tournament pop g1 with ⟨x2, g2⟩
      rcases h3 : recomb x1 x2 g2 with ⟨children, g3⟩
      rcases h4 : push_children mutf target children acc g3 with ⟨acc', g4⟩
      have hch : children ≠ [] := by
        have := hne x1 x2 g2
        rw [h3] at this
        exact this
      have hgrow : acc.length + 1 ≤ acc'.length ∧ acc'.length ≤ target := by
        have := push_children_length mutf target children acc g3 hlt
        rw [h4] at this
        simp at this
        rcases children with _ | ⟨c, cs⟩
        · exact absurd rfl hch
        · simp at this
          omega
      obtain ⟨out, g', hloop, hexact⟩ := variation_loop_total mutf recomb pop
        target hne fuel acc' g4 hgrow.2 (by omega)
      refine ⟨out, g', ?_, hexact⟩
      simp only [variation_loop, if_pos hlt, h1, h2, h3, h4]
      exact hloop
    · exact ⟨acc, g,
        variation_loop_exit mutf recomb pop target (fuel + 1) acc g hlt,
        by omega⟩

theorem evaluate_all_length (ev : I → urbg → F × urbg) :
    ∀ (xs : List I) (g : urbg), (evaluate_all ev xs g).1.length = xs.length
  | [], _ => rfl
  | x :: xs, g => by
    rcases he : ev x g with ⟨f, g'⟩
    rcases hr : evaluate_all ev xs g' with ⟨rest, g''⟩
    have := evaluate_all_length ev xs g'
    rw [hr] at this
    simp [evaluate_all, he, hr, this]

/-- When `evaluate` neither draws from nor inspects the generator, the
single-evaluation pass is a pure map over the buffer. -/
theorem evaluate_all_pure (ev : I → urbg → F × urbg) (f : I → F)
    (hev : ∀ x g, ev x g = (f x, g)) :
    ∀ (xs : List I) (g : urbg), evaluate_all ev xs g = (xs.map f, g)
  | [], _ => rfl
  | x :: xs, g => by
    simp [evaluate_all, hev x g, evaluate_all_pure ev f hev xs g]

theorem zipWith_mk_map (f : I → F) :
    ∀ buf : List I, List.zipWith solution.mk buf (buf.map f) =
      buf.map fun c => solution.mk c (f c)
  | [] => rfl
  | c :: cs => by simp [zipWith_mk_map f cs]

end LoopLemmas

section SortLemmas

variable {I F : Type} [LinearOrder F]

theorem sort_population_sorted (k : Nat) (l : List (solution I F)) :
    List.Sorted fitness_le (sort_population k l) :=
  List.sorted_insertionSort fitness_le l

theorem sort_population_perm (k : Nat) (l : List (solution I F)) :
    List.Perm (sort_population k l) l :=
  List.perm_insertionSort fitness_le l

theorem sort_population_length (k : Nat) (l : List (solution I F)) :
    (sort_population k l).length = l.length :=
  (sort_population_perm k l).length_eq

theorem sorted_fitness_map {l : List (solution I F)}
    (h : List.Sorted fitness_le l) :
    List.Sorted (· ≤ ·) (l.map solution.fitness) := by
  rw [List.Sorted, List.pairwise_map]
  exact h

theorem insertionSort_of_sorted {l : List F} (h : List.Sorted (· ≤ ·) l) :
    List.insertionSort (· ≤ ·) l = l :=
  List.eq_of_perm_of_sorted (List.perm_insertionSort (· ≤ ·) l)
    (List.sorted_insertionSort (· ≤ ·) l) h

/-- Sorting the solutions by fitness and then projecting to fitnesses gives
the sorted list of all fitnesses of the population. -/
theorem sort_population_fitness_map (k : Nat) (l : List (solution I F)) :
    (sort_population k l).map solution.fitness =
      List.insertionSort (· ≤ ·) (l.map solution.fitness) :=
  List.eq_of_perm_of_sorted
    (((sort_population_perm k l).map solution.fitness).trans
      (List.perm_insertionSort (· ≤ ·) (l.map solution.fitness)).symm)
    (sorted_fitness_map (sort_population_sorted k l))
    (List.sorted_insertionSort (· ≤ ·) (l.map solution.fitness))

end SortLemmas

section Invariant

variable {I F : Type}

/-- The population ordering invariant claimed by the specification: the
first `k` slots are sorted ascending by fitness, every solution in the
prefix is at least as fit as every solution after it, and the prefix
fitnesses are exactly the `k` smallest fitnesses present in the population
(as a multiset, witnessed by agreeing with the first `k` entries of the
sorted list of all fitnesses). -/
def elite_invariant [LinearOrder F] (k : Nat) (pop : List (solution I F)) :
    Prop :=
  List.Sorted fitness_le (pop.take k) ∧
  (∀ a ∈ pop.take k, ∀ b ∈ pop.drop k, a.fitness ≤ b.fitness) ∧
  (pop.take k).map solution.fitness =
    (List.insertionSort (· ≤ ·) (pop.map solution.fitness)).take k

/-- A freshly sorted population satisfies the elite invariant for any elite
count. -/
theorem elite_invariant_sort_population [LinearOrder F] (k : Nat)
    (l : List (solution I F)) : elite_invariant k (sort_population k l) := by
  have hsorted := sort_population_sorted k l
  have hsplit := List.take_append_drop k (sort_population k l)
  have hpair : List.Pairwise fitness_le (sort_population k l) := hsorted
  rw [← hsplit, List.pairwise_append] at hpair
  refine ⟨hsorted.sublist (List.take_sublist _ _), hpair.2.2, ?_⟩
  rw [insertionSort_of_sorted (sorted_fitness_map hsorted)]
  exact List.map_take ..

end Invariant

section TraceLemmas

variable {I F : Type}

theorem push_children_extends (mutf : I → urbg → I × urbg) (target : Nat) :
    ∀ (cs acc : List I) (g : urbg),
      ∃ d, (push_children mutf target cs acc g).1 = acc ++ d
  | [], acc, g => ⟨[], by simp [push_children]⟩
  | c :: cs, acc, g => by
    rcases hm : mutf c g with ⟨c', g'⟩
    by_cases he : (acc ++ [c']).length = target
    · exact ⟨[c'], by simp [push_children, hm, he]⟩
    · obtain ⟨d, hd⟩ := push_children_extends mutf target cs (acc ++ [c']) g'
      have he' : ¬ acc.length + 1 = target := by simpa using he
      exact ⟨[c'] ++ d, by simp [push_children, hm, he', hd]⟩

theorem variation_loop_extends [LinearOrder F] [Inhabited I] [Inhabited F]
    (mutf : I → urbg → I × urbg) (recomb : I → I → urbg → List I × urbg)
    (pop : List (solution I F)) (target : Nat) :
    ∀ (fuel : Nat) (acc : List I) (g : urbg) (out : List I) (g' : urbg),
      variation_loop mutf recomb pop target fuel acc g = some (out, g') →
      ∃ d, out = acc ++ d
  | 0, acc, g, out, g', h => by
    by_cases hlt : acc.length < target
    · simp [variation_loop, hlt] at h
    · simp only [variation_loop, if_neg hlt, Option.some.injEq,
        Prod.mk.injEq] at h
      exact ⟨[], by simp [← h.1]⟩
  | fuel + 1, acc, g, out, g', h => by
    by_cases hlt : acc.length < target
    · simp only [variation_loop, if_pos hlt] at h
      rcases h1 : binary_tournament pop g with ⟨x1, g1⟩
      rcases h2 : binary_tournament pop g1 with ⟨x2, g2⟩
      rcases h3 : recomb x1 x2 g2 with ⟨children, g3⟩
      rcases h4 : push_children mutf target children acc g3 with ⟨acc', g4⟩
      rw [h1, h2, h3, h4] at h
      obtain ⟨d1, hd1⟩ := push_children_extends mutf target children acc g3
      rw [h4] at hd1
      obtain ⟨d2, hd2⟩ := variation_loop_extends mutf recomb pop target fuel
        acc' g4 out g' h
      have hd1' : acc' = acc ++ d1 := hd1
      exact ⟨d1 ++ d2, by rw [hd2, hd1', List.append_assoc]⟩
    · simp only [variation_loop, if_neg hlt, Option.some.injEq,
        Prod.mk.injEq] at h
      exact ⟨[], by simp [← h.1]⟩

theorem map_drop_chunk {A B : Type} (f : A → B) (l1 l2 l3 : List A) :
    List.drop (l1.length + l2.length) (l1.map f ++ (l2.map f ++ l3.map f)) =
      l3.map f := by
  rw [← List.append_assoc, ← List.map_append]
  have h : l1.length + l2.length = ((l1 ++ l2).map f).length := by simp
  rw [h, List.drop_left]

theorem push_children_tr_eq (mutf : I → urbg → I × urbg) (target : Nat) :
    ∀ (cs acc : List I) (g : urbg),
      @push_children_tr I F mutf target cs acc g =
        ((push_children mutf target cs acc g).1,
          (push_children mutf target cs acc g).2,
          (((push_children mutf target cs acc g).1.drop acc.length).map
            trace_event.pushed))
  | [], acc, g => by simp [push_children_tr, push_children]
  | c :: cs, acc, g => by
    rcases hm : mutf c g with ⟨c', g'⟩
    by_cases he : (acc ++ [c']).length = target
    · simp [push_children_tr, push_children, hm, he, List.drop_left]
    · obtain ⟨d, hd⟩ := push_children_extends mutf target cs (acc ++ [c']) g'
      have ih := push_children_tr_eq mutf target cs (acc ++ [c']) g'
      simp only [push_children_tr, push_children, hm, if_neg he, ih, hd,
        Prod.mk.injEq]
      refine ⟨trivial, trivial, ?_⟩
      have hL : acc ++ [c'] ++ d = acc ++ ([c'] ++ d) := by simp
      rw [List.drop_left, hL, List.drop_left]
      simp

theorem evaluate_all_tr_eq (ev : I → urbg → F × urbg) :
    ∀ (xs : List I) (g : urbg),
      evaluate_all_tr ev xs g =
        ((evaluate_all ev xs g).1, (evaluate_all ev xs g).2,
          xs.map trace_event.evaluated)
  | [], g => by simp [evaluate_all_tr, evaluate_all]
  | x :: xs, g => by
    rcases he : ev x g with ⟨f, g'⟩
    simp [evaluate_all_tr, evaluate_all, he, evaluate_all_tr_eq ev xs g']

theorem variation_loop_tr_eq [LinearOrder F] [Inhabited I] [Inhabited F]
    (mutf : I → urbg → I × urbg) (recomb : I → I → urbg → List I × urbg)
    (pop : List (solution I F)) (target : Nat) :
    ∀ (fuel : Nat) (acc : List I) (g : urbg),
      variation_loop_tr mutf recomb pop target fuel acc g =
        (variation_loop mutf recomb pop target fuel acc g).map
          (fun p => (p.1, p.2,
            ((p.1.drop acc.length).map trace_event.pushed)))
  | 0, acc, g => by
    by_cases hlt : acc.length < target
    · simp [variation_loop_tr, variation_loop, hlt]
    · simp [variation_loop_tr, variation_loop, hlt]
  | fuel + 1, acc, g => by
    by_cases hlt : acc.length < target
    · rcases h1 : binary_tournament pop g with ⟨x1, g1⟩
      rcases h2 : binary_tournament pop g1 with ⟨x2, g2⟩
      rcases h3 : recomb x1 x2 g2 with ⟨children, g3⟩
      rcases h4 : push_children mutf target children acc g3 with ⟨acc', g4⟩
      obtain ⟨d1, hd1⟩ := push_children_extends mutf target children acc g3
      rw [h4] at hd1
      simp only [variation_loop_tr, variation_loop, if_pos hlt, h1, h2, h3,
        push_children_tr_eq mutf target children acc g3, h4,
        variation_loop_tr_eq mutf recomb pop target fuel acc' g4]
      rcases hloop : variation_loop mutf recomb pop target fuel acc' g4 with
        _ | ⟨out, g'⟩
      · simp
      · obtain ⟨d2, hd2⟩ := variation_loop_extends mutf recomb pop target fuel
          acc' g4 out g' hloop
        have hd1' : acc' = acc ++ d1 := hd1
        subst hd2
        subst hd1'
        have hL : acc ++ d1 ++ d2 = acc ++ (d1 ++ d2) := List.append_assoc ..
        simp [List.drop_left, hL]
        exact map_drop_chunk trace_event.pushed acc d1 d2
    · simp [variation_loop_tr, variation_loop, hlt]

end TraceLemmas

section Extraction

variable {I F : Type}

/-- Unfolding lemma for `iterate`: a returned result is the finish step
applied to the buffer produced by the variation loop and the output of the
evaluation phase. -/
theorem iterate_eq_some [LinearOrder F] [Inhabited I] [Inhabited F]
    (p : any_problem I F) (k fuel : Nat) (st : algorithmState I F)
    (r : execResult I F) :
    iterate p k fuel st = some r ↔
      ∃ buf g1, variation_loop p.mutate p.recombine st.population
          (st.population.length - k) fuel [] st.generator = some (buf, g1) ∧
        r = finish_iterate st.population.length k
          (evaluation_phase p buf st.population k g1).2.1 buf
          (evaluation_phase p buf st.population k g1).1
          (evaluation_phase p buf st.population k g1).2.2 := by
  unfold iterate
  rcases hloop : variation_loop p.mutate p.recombine st.population
      (st.population.length - k) fuel [] st.generator with _ | ⟨buf, g1⟩
  · simp [hloop]
  · rcases hep : evaluation_phase p buf st.population k g1 with
      ⟨fits, pop2, g2⟩
    simp only [hloop, hep, Option.some.injEq]
    constructor
    · intro h
      refine ⟨buf, g1, rfl, ?_⟩
      simp only [hep]
      exact h.symm
    · rintro ⟨buf2, g12, h1, h2⟩
      obtain ⟨hb1, hb2⟩ : buf2 = buf ∧ g12 = g1 := by
        simp only [Prod.mk.injEq] at h1
        exact ⟨h1.1.symm, h1.2.symm⟩
      subst hb1
      subst hb2
      simp only [hep] at h2
      exact h2.symm

/-- A successful `iterate` forces the three size checks to pass and yields
the sorted splice of the surviving elite slots with the fresh solutions. -/
theorem iterate_ok_elim [LinearOrder F] [Inhabited I] [Inhabited F]
    (p : any_problem I F) (k fuel : Nat) (st st2 : algorithmState I F)
    (h : iterate p k fuel st = some (.ok st2)) :
    ∃ buf g1,
      variation_loop p.mutate p.recombine st.population
        (st.population.length - k) fuel [] st.generator = some (buf, g1) ∧
      (evaluation_phase p buf st.population k g1).2.1.length =
        st.population.length ∧
      buf.length = st.population.length - k ∧
      (evaluation_phase p buf st.population k g1).1.length =
        st.population.length - k ∧
      st2.population = sort_population k
        ((evaluation_phase p buf st.population k g1).2.1.take k ++
          List.zipWith solution.mk buf
            (evaluation_phase p buf st.population k g1).1) := by
  obtain ⟨buf, g1, hloop, hr⟩ := (iterate_eq_some p k fuel st (.ok st2)).1 h
  refine ⟨buf, g1, hloop, ?_⟩
  unfold finish_iterate at hr
  by_cases hc : (evaluation_phase p buf st.population k g1).2.1.length ≠
      st.population.length ∨ buf.length ≠ st.population.length - k ∨
      (evaluation_phase p buf st.population k g1).1.length ≠
        st.population.length - k
  · rw [if_pos hc] at hr
    exact absurd hr (by simp)
  · rw [if_neg hc] at hr
    push_neg at hc
    have hst : st2 = ⟨sort_population k
        ((evaluation_phase p buf st.population k g1).2.1.take k ++
          List.zipWith solution.mk buf
            (evaluation_phase p buf st.population k g1).1),
        (evaluation_phase p buf st.population k g1).2.2⟩ := by
      simpa using hr
    exact ⟨hc.1, hc.2.1, hc.2.2, by rw [hst]⟩

end Extraction

/-- Deterministically seeded generator used for concrete runs: the raw draw
at position `n` is `n` itself. -/
def g0 : urbg := ⟨fun n => n, 0⟩

/-- A small single-evaluation problem used for concrete runs, in the style
of the repository tests: doubling mutation, two children per recombination,
identity fitness, no generator draws. -/
def sp_test : single_evaluation_problem Nat Nat :=
  { mutate := fun x g => (2 * x, g)
    recombine := fun a b g => ([a + b, b + b], g)
    evaluate := fun x g => (x, g) }

/-- Claim C1: for every engine and every sequence of public operations
(construction followed by any number of iterate calls), after each operation
the first elite_count elements of the population are exactly the elite_count
smallest-fitness solutions present in the population, and that prefix is
sorted ascending by fitness.  Stated as: construction establishes the
invariant, and every successful iterate re-establishes it from any state,
which covers every operation sequence by induction. -/
theorem claim_C1 (I F : Type) [LinearOrder F] [Inhabited I] [Inhabited F] :
    (∀ (p : any_problem I F) (pop0 : List I) (k : Nat) (g : urbg)
      (st : algorithmState I F),
      make_algorithm p pop0 k g = .ok st → elite_invariant k st.population) ∧
    (∀ (p : any_problem I F) (k fuel : Nat) (st st2 : algorithmState I F),
      iterate p k fuel st = some (.ok st2) →
        elite_invariant k st2.population) := by
  constructor
  · intro p pop0 k g st h
    unfold make_algorithm at h
    by_cases h1 : pop0.length ≤ k
    · rw [if_pos h1] at h
      exact absurd h (by simp)
    · rw [if_neg h1] at h
      rcases hie : initial_evaluation p pop0 g with ⟨fits, popOut, g1⟩
      simp only [hie] at h
      by_cases h2 : fits.length ≠ pop0.length ∨ popOut.length > 0
      · rw [if_pos h2] at h
        exact absurd h (by simp)
      · rw [if_neg h2] at h
        have hst : st =
            ⟨sort_population k (List.zipWith solution.mk pop0 fits), g1⟩ :=
          (by simpa using h : _ = st).symm
        rw [hst]
        exact elite_invariant_sort_population k _
  · intro p k fuel st st2 h
    obtain ⟨buf, g1, _, _, _, _, hpop⟩ := iterate_ok_elim p k fuel st st2 h
    rw [hpop]
    exact elite_invariant_sort_population k _

/-- Claim C2: the population length equals the initial length after
construction and is preserved by every successful iterate, and each iterate
produces exactly `N - elite_count` new individuals and exactly
`N - elite_count` new fitnesses. -/
theorem claim_C2 (I F : Type) [LinearOrder F] [Inhabited I] [Inhabited F] :
    (∀ (p : any_problem I F) (pop0 : List I) (k : Nat) (g : urbg)
      (st : algorithmState I F),
      make_algorithm p pop0 k g = .ok st →
        st.population.length = pop0.length) ∧
    (∀ (p : any_problem I F) (k fuel : Nat) (st st2 : algorithmState I F),
      iterate p k fuel st = some (.ok st2) →
        st2.population.length = st.population.length ∧
        ∃ buf g1, variation_loop p.mutate p.recombine st.population
            (st.population.length - k) fuel [] st.generator =
              some (buf, g1) ∧
          buf.length = st.population.length - k ∧
          (evaluation_phase p buf st.population k g1).1.length =
            st.population.length - k) := by
  constructor
  · intro p pop0 k g st h
    unfold make_algorithm at h
    by_cases h1 : pop0.length ≤ k
    · rw [if_pos h1] at h
      exact absurd h (by simp)
    · rw [if_neg h1] at h
      rcases hie : initial_evaluation p pop0 g with ⟨fits, popOut, g1⟩
      simp only [hie] at h
      by_cases h2 : fits.length ≠ pop0.length ∨ popOut.length > 0
      · rw [if_pos h2] at h
        exact absurd h (by simp)
      · rw [if_neg h2] at h
        push_neg at h2
        have hst : st =
            ⟨sort_population k (List.zipWith solution.mk pop0 fits), g1⟩ :=
          (by simpa using h : _ = st).symm
        rw [hst]
        simp [sort_population_length, List.length_zipWith, h2.1]
  · intro p k fuel st st2 h
    obtain ⟨buf, g1, hloop, hplen, hblen, hflen, hpop⟩ :=
      iterate_ok_elim p k fuel st st2 h
    refine ⟨?_, buf, g1, hloop, hblen, hflen⟩
    rw [hpop, sort_population_length, List.length_append, List.length_take,
      List.length_zipWith, hplen, hblen, hflen]
    omega

/-- Claim C3: construction fails with the configuration error
(`std::invalid_argument`, and no engine is produced) exactly when
`elite_count >= initial_population.length`; in particular construction from
an empty initial population with elite count 1 fails that way. -/
theorem claim_C3 (I F : Type) [LinearOrder F] :
    (∀ (p : any_problem I F) (pop0 : List I) (k : Nat) (g : urbg),
      make_algorithm p pop0 k g = .error .invalid_argument ↔
        pop0.length ≤ k) ∧
    (∀ (p : any_problem I F) (g : urbg),
      make_algorithm p [] 1 g = .error .invalid_argument) := by
  have hmain : ∀ (p : any_problem I F) (pop0 : List I) (k : Nat) (g : urbg),
      make_algorithm p pop0 k g = .error .invalid_argument ↔
        pop0.length ≤ k := by
    intro p pop0 k g
    unfold make_algorithm
    by_cases h1 : pop0.length ≤ k
    · simp [h1]
    · rw [if_neg h1]
      rcases hie : initial_evaluation p pop0 g with ⟨fits, popOut, g1⟩
      simp only [hie]
      by_cases h2 : fits.length ≠ pop0.length ∨ popOut.length > 0
      · simp [h2, h1]
      · simp [h2, h1]
  exact ⟨hmain, fun p g => (hmain p [] 1 g).2 (by simp)⟩

/-- The state produced by constructing the engine from `[3, 1, 2]` with
elite count 1 over `sp_test` (fitness is the identity, so the population is
sorted to `[1, 2, 3]` and no draw is consumed). -/
def stW : algorithmState Nat Nat := ⟨[⟨1, 1⟩, ⟨2, 2⟩, ⟨3, 3⟩], g0⟩

/-- The state produced by one `iterate` on `stW` (four tournament draws are
consumed). -/
def stW2 : algorithmState Nat Nat := ⟨[⟨1, 1⟩, ⟨4, 4⟩, ⟨4, 4⟩], ⟨fun n => n, 4⟩⟩

theorem claim_C1_witness :
    elite_invariant 1 stW.population ∧ elite_invariant 1 stW2.population :=
  ⟨(claim_C1 Nat Nat).1 (.single sp_test) [3, 1, 2] 1 g0 stW rfl,
   (claim_C1 Nat Nat).2 (.single sp_test) 1 4 stW stW2 rfl⟩

theorem claim_C2_witness :
    stW.population.length = 3 ∧
    stW2.population.length = stW.population.length :=
  ⟨(claim_C2 Nat Nat).1 (.single sp_test) [3, 1, 2] 1 g0 stW rfl,
   ((claim_C2 Nat Nat).2 (.single sp_test) 1 4 stW stW2 rfl).1⟩

theorem claim_C3_witness :
    make_algorithm (.single sp_test) [] 1 g0 = .error .invalid_argument :=
  (claim_C3 Nat Nat).2 (.single sp_test) g0

/-- A generator with constant raw draw 100, for concrete runs that observe
how many draws a call consumes. -/
def gW : urbg := ⟨fun _ => 100, 0⟩

/-- A mutation that consumes exactly one draw and adds it to the genotype;
used to observe which children are actually mutated. -/
def mut_draw : Nat → urbg → Nat × urbg :=
  fun x g => (x + g.seq g.pos, ⟨g.seq, g.pos + 1⟩)

/-- Identity mutation consuming no draw. -/
def mut_id : Nat → urbg → Nat × urbg := fun x g => (x, g)

/-- A recombination returning no children; under it the variation loop never
makes progress. -/
def rec_none : Nat → Nat → urbg → List Nat × urbg := fun _ _ g => ([], g)

/-- A recombination returning exactly one child, the first parent. -/
def rec_one : Nat → Nat → urbg → List Nat × urbg := fun a _ g => ([a], g)

/-- Claim C7: during iterate, offspring of one recombination are consumed in
produced order; offspring beyond the remaining room in the next-generation
buffer are discarded with no error and without even being mutated, the
buffer stops exactly at the target, and the loop then exits immediately.
The last conjunct is the concrete scenario: three offspring with one free
slot buffer exactly the first (one mutation draw consumed) and discard two. -/
theorem claim_C7 :
    (∀ (I : Type) (mutf : I → urbg → I × urbg) (target : Nat)
      (children acc : List I) (g : urbg), acc.length < target →
      push_children mutf target children acc g =
        (acc ++ (mutate_all mutf (children.take (target - acc.length)) g).1,
          (mutate_all mutf (children.take (target - acc.length)) g).2)) ∧
    (∀ (I F : Type) [LinearOrder F] [Inhabited I] [Inhabited F]
      (mutf : I → urbg → I × urbg) (recomb : I → I → urbg → List I × urbg)
      (pop : List (solution I F)) (target fuel : Nat) (acc : List I)
      (g : urbg), ¬ acc.length < target →
      variation_loop mutf recomb pop target fuel acc g = some (acc, g)) ∧
    push_children mut_draw 3 [10, 20, 30] [7, 8] gW =
      ([7, 8, 110], ⟨gW.seq, 1⟩) := by
  refine ⟨?_, ?_, ?_⟩
  · intro _ mutf target children acc g h
    exact push_children_spec mutf target children acc g h
  · intro I F _ _ _ mutf recomb pop target fuel acc g h
    exact variation_loop_exit mutf recomb pop target fuel acc g h
  · rfl

theorem claim_C7_witness :
    push_children mut_draw 5 [1, 2, 3] [] gW =
      ([] ++ (mutate_all mut_draw ([1, 2, 3].take (5 - List.length
        ([] : List Nat))) gW).1,
        (mutate_all mut_draw ([1, 2, 3].take (5 - List.length
          ([] : List Nat))) gW).2) ∧
    variation_loop mut_id rec_one ([⟨0, 0⟩] : List (solution Nat Nat)) 0 7
      [] gW = some ([], gW) :=
  ⟨claim_C7.1 Nat mut_draw 5 [1, 2, 3] [] gW (by decide),
   claim_C7.2.1 Nat Nat mut_id rec_one [⟨0, 0⟩] 0 7 [] gW (by decide)⟩

/-- Claim C9: if every recombination yields at least one offspring, the
selection-variation loop terminates with the buffer at exactly the target
size `N - elite_count` (fuel equal to the target number of slots suffices,
so the C++ while loop ends); with an empty recombination result the loop
makes no progress and no amount of fuel makes it terminate. -/
theorem claim_C9 :
    (∀ (I F : Type) [LinearOrder F] [Inhabited I] [Inhabited F]
      (mutf : I → urbg → I × urbg) (recomb : I → I → urbg → List I × urbg)
      (pop : List (solution I F)) (target fuel : Nat) (g : urbg),
      (∀ a b g2, (recomb a b g2).1 ≠ []) → target ≤ fuel →
      ∃ out g', variation_loop mutf recomb pop target fuel [] g =
        some (out, g') ∧ out.length = target) ∧
    (∀ (fuel : Nat) (g : urbg),
      variation_loop mut_id rec_none ([⟨0, 0⟩] : List (solution Nat Nat)) 1
        fuel [] g = none) := by
  constructor
  · intro I F _ _ _ mutf recomb pop target fuel g hne hfuel
    exact variation_loop_total mutf recomb pop target hne fuel [] g
      (by simp) (by simpa using hfuel)
  · intro fuel
    induction fuel with
    | zero => intro g; rfl
    | succ fuel ih =>
      intro g
      have h01 : (0 : Nat) < 1 := by decide
      rcases h1 : binary_tournament ([⟨0, 0⟩] : List (solution Nat Nat)) g
        with ⟨x1, g1⟩
      rcases h2 : binary_tournament ([⟨0, 0⟩] : List (solution Nat Nat)) g1
        with ⟨x2, g2⟩
      simp only [variation_loop, List.length_nil, h01, if_pos, h1, h2,
        rec_none, push_children]
      exact ih g2

/-- Claim C4 (amended): binary tournament draws index `i` then `j`; it
returns the genotype of `population[i]` exactly when `population[i]` has
strictly smaller fitness, and otherwise — including the tie case — returns
the genotype of the second-drawn `population[j]`; the call consumes exactly
two generator draws and, being modelled as a pure function of the
population, mutates nothing. -/
theorem claim_C4_amended (I F : Type) [LinearOrder F] [Inhabited I]
    [Inhabited F] (pop : List (solution I F)) (g : urbg) :
    ((solAt pop (g.seq g.pos % pop.length)).fitness <
        (solAt pop (g.seq (g.pos + 1) % pop.length)).fitness →
      (binary_tournament pop g).1 =
        (solAt pop (g.seq g.pos % pop.length)).x) ∧
    (¬ (solAt pop (g.seq g.pos % pop.length)).fitness <
        (solAt pop (g.seq (g.pos + 1) % pop.length)).fitness →
      (binary_tournament pop g).1 =
        (solAt pop (g.seq (g.pos + 1) % pop.length)).x) ∧
    (binary_tournament pop g).2 = ⟨g.seq, g.pos + 2⟩ := by
  unfold binary_tournament sample_from
  refine ⟨fun h => by simp [h], fun h => by simp [h], rfl⟩

/-- A two-solution population with equal fitnesses but distinct genotypes,
so the tie-breaking direction of the tournament is observable. -/
def pop_tie : List (solution Nat Nat) := [⟨0, 5⟩, ⟨1, 5⟩]

/-- A two-solution population where the second-drawn solution is strictly
fitter. -/
def pop_fit : List (solution Nat Nat) := [⟨0, 9⟩, ⟨1, 5⟩]

/-- Claim C4 counterexample: with the identity draw stream the tournament
draws `i = 0` first and `j = 1` second; the two fitnesses tie, and the call
returns the genotype of the second-drawn individual, not the first-drawn
one claimed by the specification. -/
theorem claim_C4_counterexample :
    (solAt pop_tie 0).fitness = (solAt pop_tie 1).fitness ∧
    g0.seq g0.pos % pop_tie.length = 0 ∧
    g0.seq (g0.pos + 1) % pop_tie.length = 1 ∧
    (binary_tournament pop_tie g0).1 = (solAt pop_tie 1).x ∧
    (binary_tournament pop_tie g0).1 ≠ (solAt pop_tie 0).x := by
  decide

theorem claim_C4_witness :
    (binary_tournament pop_fit g0).1 = (solAt pop_fit 1).x ∧
    (binary_tournament pop_tie g0).2 = ⟨g0.seq, 2⟩ :=
  ⟨(claim_C4_amended Nat Nat pop_fit g0).2.1 (by decide),
   (claim_C4_amended Nat Nat pop_tie g0).2.2⟩

/-- A multi-evaluation problem whose batch evaluate emits no fitness at all
(a count mismatch) and additionally bumps every fitness of the population it
receives by non-const reference, keeping its size unchanged. -/
def mp_bad : multi_evaluation_problem Nat Nat :=
  { mutate := fun x g => (x, g)
    recombine := fun a _ g => ([a], g)
    evaluate := fun _ el _ g =>
      ([], el.map (fun s => ⟨s.x, s.fitness + 1⟩), g) }

/-- A multi-evaluation problem whose batch evaluate emits no fitness (a
count mismatch) but leaves the population it receives untouched. -/
def mp_mismatch : multi_evaluation_problem Nat Nat :=
  { mutate := fun x g => (x, g)
    recombine := fun a _ g => ([a], g)
    evaluate := fun _ el _ g => ([], el, g) }

/-- A two-solution engine state used to drive the mismatch scenarios. -/
def st_bad : algorithmState Nat Nat := ⟨[⟨0, 0⟩, ⟨1, 1⟩], g0⟩

/-- Claim C6 counterexample: `mp_bad` returns zero fitnesses for a
one-individual buffer, so the evaluation step mismatches and iterate throws
the fatal error (the `false` flag below), yet the population observable
afterwards differs from the one before the call, because the batch evaluate
mutated the population through the non-const reference it receives before
the size check fired. -/
theorem claim_C6_counterexample :
    (mp_bad.evaluate [0] st_bad.population 1 g0).1.length = 0 ∧
    observe (iterate (.multi mp_bad) 1 3 st_bad) =
      some (false, [⟨0, 1⟩, ⟨1, 2⟩]) ∧
    [(⟨0, 1⟩ : solution Nat Nat), ⟨1, 2⟩] ≠ st_bad.population := by
  decide

/-- Claim C6 (amended): a fitness-count mismatch is impossible on the
single-evaluation path (one fitness is produced per individual by
construction); on the multi-evaluation path a mismatch at construction
yields the distinguished fatal error and constructs nothing, and a mismatch
during iterate yields the distinguished fatal error thrown before any
splice, so the population observable afterwards is exactly whatever the
batch evaluate left in the vector it received by reference — in particular
it is unchanged whenever the problem does not itself mutate that vector. -/
theorem claim_C6_amended (I F : Type) [LinearOrder F] [Inhabited I]
    [Inhabited F] :
    (∀ (sp : single_evaluation_problem I F) (buf : List I) (g : urbg),
      (evaluate_all sp.evaluate buf g).1.length = buf.length) ∧
    (∀ (mp : multi_evaluation_problem I F) (pop0 : List I) (k : Nat)
      (g : urbg), k < pop0.length →
      (mp.evaluate pop0 [] 0 g).1.length ≠ pop0.length →
      make_algorithm (.multi mp) pop0 k g = .error .runtime_error) ∧
    (∀ (mp : multi_evaluation_problem I F) (k fuel : Nat)
      (st : algorithmState I F) (buf : List I) (g1 : urbg),
      variation_loop mp.mutate mp.recombine st.population
        (st.population.length - k) fuel [] st.generator = some (buf, g1) →
      (mp.evaluate buf st.population k g1).1.length ≠ buf.length →
      (mp.evaluate buf st.population k g1).2.1 = st.population →
      iterate (.multi mp) k fuel st = some (.err .runtime_error
        ⟨st.population, (mp.evaluate buf st.population k g1).2.2⟩)) := by
  refine ⟨?_, ?_, ?_⟩
  · intro sp buf g
    exact evaluate_all_length sp.evaluate buf g
  · intro mp pop0 k g hk hmis
    unfold make_algorithm
    rw [if_neg (by omega)]
    rcases hie : initial_evaluation (.multi mp) pop0 g with ⟨fits, popOut, g1⟩
    have hie2 : mp.evaluate pop0 [] 0 g = (fits, popOut, g1) := hie
    simp only [hie]
    rw [hie2] at hmis
    rw [if_pos (Or.inl hmis)]
  · intro mp k fuel st buf g1 hloop hmis hpres
    have hblen : buf.length = st.population.length - k :=
      variation_loop_exact mp.mutate mp.recombine st.population
        (st.population.length - k) fuel [] st.generator buf g1 (by simp) hloop
    have hfits : (mp.evaluate buf st.population k g1).1.length ≠
        st.population.length - k := by rw [← hblen]; exact hmis
    unfold iterate
    have hloop2 : variation_loop (any_problem.multi mp).mutate
        (any_problem.multi mp).recombine st.population
        (st.population.length - k) fuel [] st.generator = some (buf, g1) :=
      hloop
    simp only [hloop2]
    rcases hev : mp.evaluate buf st.population k g1 with ⟨fits, pop2, g2⟩
    have hev2 : evaluation_phase (any_problem.multi mp) buf st.population k
        g1 = (fits, pop2, g2) := hev
    simp only [hev2]
    unfold finish_iterate
    rw [hev] at hfits hpres
    rw [if_pos (Or.inr (Or.inr hfits))]
    have hpres2 : pop2 = st.population := hpres
    rw [hpres2]

theorem claim_C6_witness :
    make_algorithm (.multi mp_mismatch) [0, 1] 1 g0 =
      .error .runtime_error ∧
    iterate (.multi mp_mismatch) 1 3 st_bad =
      some (.err .runtime_error ⟨st_bad.population, ⟨fun n => n, 4⟩⟩) :=
  ⟨(claim_C6_amended Nat Nat).2.1 mp_mismatch [0, 1] 1 g0 (by decide)
      (by decide),
   (claim_C6_amended Nat Nat).2.2 mp_mismatch 1 3 st_bad [0]
      ⟨fun n => n, 4⟩ rfl (by decide) rfl⟩

/-- Evaluation of both the traced and the untraced iterate of a
multi-evaluation engine, once the variation loop result and the batch
evaluation result are known. -/
theorem iterate_tr_multi_elim {I F : Type} [LinearOrder F] [Inhabited I]
    [Inhabited F] (mp : multi_evaluation_problem I F) (k fuel : Nat)
    (st : algorithmState I F) (buf : List I) (g1 : urbg) (fits : List F)
    (pop2 : List (solution I F)) (g2 : urbg)
    (hloop : variation_loop mp.mutate mp.recombine st.population
      (st.population.length - k) fuel [] st.generator = some (buf, g1))
    (hev : mp.evaluate buf st.population k g1 = (fits, pop2, g2)) :
    iterate_tr (.multi mp) k fuel st =
      some (finish_iterate st.population.length k pop2 buf fits g2,
        buf.map trace_event.pushed ++
          [trace_event.batch_evaluated buf st.population k]) ∧
    iterate (.multi mp) k fuel st =
      some (finish_iterate st.population.length k pop2 buf fits g2) := by
  have hloop2 : variation_loop (any_problem.multi mp).mutate
      (any_problem.multi mp).recombine st.population
      (st.population.length - k) fuel [] st.generator = some (buf, g1) :=
    hloop
  constructor
  · unfold iterate_tr
    simp only [variation_loop_tr_eq, hloop2]
    simp [hev]
  · unfold iterate
    simp only [hloop2]
    have hev2 : evaluation_phase (any_problem.multi mp) buf st.population k
        g1 = (fits, pop2, g2) := hev
    simp [hev2]

/-- Claim C8 (amended): in every terminating iterate of a multi-evaluation
engine the batch evaluate is called exactly once (one batch event in the
trace), receiving the full offspring buffer, the entire current population
member `population_` (whose first `elite_count` entries are the current
elites) by non-const reference, and `elite_count`; on a normal return it
has appended exactly one fitness per input individual. -/
theorem claim_C8_amended (I F : Type) [LinearOrder F] [Inhabited I]
    [Inhabited F] :
    ∀ (mp : multi_evaluation_problem I F) (k fuel : Nat)
      (st : algorithmState I F) (r : execResult I F)
      (tr : List (trace_event I F)),
      iterate_tr (.multi mp) k fuel st = some (r, tr) →
      iterate (.multi mp) k fuel st = some r ∧
      ∃ buf g1, variation_loop mp.mutate mp.recombine st.population
          (st.population.length - k) fuel [] st.generator = some (buf, g1) ∧
        tr = buf.map trace_event.pushed ++
          [trace_event.batch_evaluated buf st.population k] ∧
        buf.length = st.population.length - k ∧
        (∀ st2, r = .ok st2 →
          (mp.evaluate buf st.population k g1).1.length =
            st.population.length - k) := by
  intro mp k fuel st r tr h
  rcases hloop : variation_loop mp.mutate mp.recombine st.population
      (st.population.length - k) fuel [] st.generator with _ | ⟨buf, g1⟩
  · have hnone : iterate_tr (.multi mp) k fuel st = none := by
      have hloop2 : variation_loop (any_problem.multi mp).mutate
          (any_problem.multi mp).recombine st.population
          (st.population.length - k) fuel [] st.generator = none := hloop
      unfold iterate_tr
      simp [variation_loop_tr_eq, hloop2]
    rw [hnone] at h
    exact absurd h (by simp)
  · rcases hev : mp.evaluate buf st.population k g1 with ⟨fits, pop2, g2⟩
    obtain ⟨htr, hit⟩ :=
      iterate_tr_multi_elim mp k fuel st buf g1 fits pop2 g2 hloop hev
    rw [htr] at h
    have hpr : (finish_iterate st.population.length k pop2 buf fits g2,
        buf.map trace_event.pushed ++
          [trace_event.batch_evaluated buf st.population k]) = (r, tr) := by
      simpa using h
    have hr : r = finish_iterate st.population.length k pop2 buf fits g2 :=
      (congrArg Prod.fst hpr).symm
    have htr2 : tr = buf.map trace_event.pushed ++
        [trace_event.batch_evaluated buf st.population k] :=
      (congrArg Prod.snd hpr).symm
    have hblen : buf.length = st.population.length - k :=
      variation_loop_exact mp.mutate mp.recombine st.population
        (st.population.length - k) fuel [] st.generator buf g1 (by simp)
        hloop
    refine ⟨by rw [hit, hr], buf, g1, rfl, htr2, hblen, ?_⟩
    intro st2 hok
    rw [hr] at hok
    unfold finish_iterate at hok
    by_cases hc : pop2.length ≠ st.population.length ∨
        buf.length ≠ st.population.length - k ∨
        fits.length ≠ st.population.length - k
    · rw [if_pos hc] at hok
      exact absurd hok (by simp)
    · push_neg at hc
      rw [hev]
      exact hc.2.2

/-- A multi-evaluation problem whose fitness for every new individual is the
fitness of `population[1]` — a slot beyond the elite prefix when the elite
count is 1.  If the batch evaluate received only the elite prefix this
problem could not be expressed. -/
def mp_ctx : multi_evaluation_problem Nat Nat :=
  { mutate := fun x g => (x, g)
    recombine := fun a _ g => ([a], g)
    evaluate := fun ni el _ g =>
      (ni.map (fun _ => (el.getD 1 default).fitness), el, g) }

/-- Two engine states identical in elite prefix, elite count and generator
stream, differing only in the fitness of the solution beyond the elite
prefix. -/
def st_ctxA : algorithmState Nat Nat := ⟨[⟨5, 0⟩, ⟨6, 5⟩], g0⟩

/-- See `st_ctxA`; only the non-elite fitness differs. -/
def st_ctxB : algorithmState Nat Nat := ⟨[⟨5, 0⟩, ⟨6, 7⟩], g0⟩

/-- Claim C8 counterexample: if the batch evaluate received read-only access
to exactly the elite prefix, two states that agree on the prefix, the elite
count, the generator and the produced buffer would have to produce the same
outcome; `mp_ctx` distinguishes them by reading `population[1]`, and the
trace records that the batch call receives the full two-element population,
which is not its one-element elite prefix. -/
theorem claim_C8_counterexample :
    st_ctxA.population.take 1 = st_ctxB.population.take 1 ∧
    st_ctxA.generator = st_ctxB.generator ∧
    observe (iterate (.multi mp_ctx) 1 3 st_ctxA) =
      some (true, [⟨5, 0⟩, ⟨5, 5⟩]) ∧
    observe (iterate (.multi mp_ctx) 1 3 st_ctxB) =
      some (true, [⟨5, 0⟩, ⟨5, 7⟩]) ∧
    observe (iterate (.multi mp_ctx) 1 3 st_ctxA) ≠
      observe (iterate (.multi mp_ctx) 1 3 st_ctxB) ∧
    (iterate_tr (.multi mp_ctx) 1 3 st_ctxA).map (fun p => p.2) =
      some [trace_event.pushed 5,
        trace_event.batch_evaluated [5] st_ctxA.population 1] ∧
    st_ctxA.population ≠ st_ctxA.population.take 1 :=
  ⟨by decide, rfl, by decide, by decide, by decide, by decide, by decide⟩

/-- Evaluation of both the traced and the untraced iterate of a
single-evaluation engine once the variation loop result is known. -/
theorem iterate_tr_single_elim {I F : Type} [LinearOrder F] [Inhabited I]
    [Inhabited F] (sp : single_evaluation_problem I F) (k fuel : Nat)
    (st : algorithmState I F) (buf : List I) (g1 : urbg)
    (hloop : variation_loop sp.mutate sp.recombine st.population
      (st.population.length - k) fuel [] st.generator = some (buf, g1)) :
    iterate_tr (.single sp) k fuel st =
      some (finish_iterate st.population.length k st.population buf
          (evaluate_all sp.evaluate buf g1).1
          (evaluate_all sp.evaluate buf g1).2,
        buf.map trace_event.pushed ++ buf.map trace_event.evaluated) ∧
    iterate (.single sp) k fuel st =
      some (finish_iterate st.population.length k st.population buf
        (evaluate_all sp.evaluate buf g1).1
        (evaluate_all sp.evaluate buf g1).2) := by
  have hloop2 : variation_loop (any_problem.single sp).mutate
      (any_problem.single sp).recombine st.population
      (st.population.length - k) fuel [] st.generator = some (buf, g1) :=
    hloop
  constructor
  · unfold iterate_tr
    simp only [variation_loop_tr_eq, hloop2]
    simp [evaluate_all_tr_eq]
  · unfold iterate
    simp only [hloop2]
    simp [evaluation_phase]

/-- Claim C5: in every terminating iterate of a single-evaluation engine all
`N - elite_count` offspring are produced and buffered first, and only then
is evaluate called, exactly once per buffered individual, in buffer order,
with the generator threaded on from the variation loop: the trace is all
push events followed by all evaluation events, one per buffered individual
in the same order, and the resulting solutions pair the buffer with the
fitness list computed from the post-loop generator state. -/
theorem claim_C5 (I F : Type) [LinearOrder F] [Inhabited I] [Inhabited F] :
    ∀ (sp : single_evaluation_problem I F) (k fuel : Nat)
      (st : algorithmState I F) (r : execResult I F)
      (tr : List (trace_event I F)),
      iterate_tr (.single sp) k fuel st = some (r, tr) →
      iterate (.single sp) k fuel st = some r ∧
      ∃ buf g1, variation_loop sp.mutate sp.recombine st.population
          (st.population.length - k) fuel [] st.generator = some (buf, g1) ∧
        tr = buf.map trace_event.pushed ++ buf.map trace_event.evaluated ∧
        buf.length = st.population.length - k ∧
        r = finish_iterate st.population.length k st.population buf
          (evaluate_all sp.evaluate buf g1).1
          (evaluate_all sp.evaluate buf g1).2 := by
  intro sp k fuel st r tr h
  rcases hloop : variation_loop sp.mutate sp.recombine st.population
      (st.population.length - k) fuel [] st.generator with _ | ⟨buf, g1⟩
  · have hnone : iterate_tr (.single sp) k fuel st = none := by
      have hloop2 : variation_loop (any_problem.single sp).mutate
          (any_problem.single sp).recombine st.population
          (st.population.length - k) fuel [] st.generator = none := hloop
      unfold iterate_tr
      simp [variation_loop_tr_eq, hloop2]
    rw [hnone] at h
    exact absurd h (by simp)
  · obtain ⟨htr, hit⟩ :=
      iterate_tr_single_elim sp k fuel st buf g1 hloop
    rw [htr] at h
    have hpr : (finish_iterate st.population.length k st.population buf
        (evaluate_all sp.evaluate buf g1).1
        (evaluate_all sp.evaluate buf g1).2,
        buf.map trace_event.pushed ++ buf.map trace_event.evaluated) =
        (r, tr) := by
      simpa using h
    have hr : r = finish_iterate st.population.length k st.population buf
        (evaluate_all sp.evaluate buf g1).1
        (evaluate_all sp.evaluate buf g1).2 :=
      (congrArg Prod.fst hpr).symm
    have htr2 : tr = buf.map trace_event.pushed ++
        buf.map trace_event.evaluated :=
      (congrArg Prod.snd hpr).symm
    have hblen : buf.length = st.population.length - k :=
      variation_loop_exact sp.mutate sp.recombine st.population
        (st.population.length - k) fuel [] st.generator buf g1 (by simp)
        hloop
    exact ⟨by rw [hit, hr], buf, g1, rfl, htr2, hblen, hr⟩

/-- The trace of the concrete single-evaluation iterate used as witness:
two pushes followed by two evaluations. -/
def trW5 : List (trace_event Nat Nat) :=
  [.pushed 4, .pushed 4, .evaluated 4, .evaluated 4]

theorem claim_C5_witness :
    iterate (.single sp_test) 1 4 stW = some (.ok stW2) :=
  (claim_C5 Nat Nat sp_test 1 4 stW (.ok stW2) trW5 rfl).1

/-- The result of the concrete multi-evaluation iterate used as witness. -/
def rW8 : execResult Nat Nat :=
  .ok ⟨[⟨5, 0⟩, ⟨5, 5⟩], ⟨fun n => n, 4⟩⟩

/-- The trace of the concrete multi-evaluation iterate used as witness: one
push, then exactly one batch evaluation receiving the buffer, the full
two-element population and the elite count. -/
def trW8 : List (trace_event Nat Nat) :=
  [.pushed 5, .batch_evaluated [5] st_ctxA.population 1]

theorem claim_C8_witness :
    iterate (.multi mp_ctx) 1 3 st_ctxA = some rW8 :=
  (claim_C8_amended Nat Nat mp_ctx 1 3 st_ctxA rW8 trW8 rfl).1

section LegacyEquivalence

variable {I F : Type}

/-- When evaluation is pure, the legacy inner child loop (which evaluates
each child immediately) computes exactly the embedded image of the current
inner child loop (which only buffers the mutated children). -/
theorem legacy_push_children_coupling (p : legacy.problem I F) (f : I → F)
    (hev : ∀ x g, p.evaluate x g = (f x, g)) (target : Nat) :
    ∀ (cs accI : List I) (g : urbg),
      legacy.push_children p.mutate p.evaluate target cs
          (accI.map (fun c => solution.mk c (f c))) g =
        ((push_children p.mutate target cs accI g).1.map
            (fun c => solution.mk c (f c)),
          (push_children p.mutate target cs accI g).2)
  | [], accI, g => by simp [legacy.push_children, push_children]
  | c :: cs, accI, g => by
    rcases hm : p.mutate c g with ⟨c', g1⟩
    have hmap : accI.map (fun c => solution.mk c (f c)) ++
        [solution.mk c' (f c')] =
        (accI ++ [c']).map (fun c => solution.mk c (f c)) := by simp
    simp only [legacy.push_children, push_children, hm, hev c' g1]
    by_cases he : (accI ++ [c']).length = target
    · have heS : (accI.map (fun c => solution.mk c (f c)) ++
          [solution.mk c' (f c')]).length = target := by
        rw [hmap, List.length_map]
        exact he
      rw [if_pos he, if_pos heS, hmap]
    · have heS : ¬ (accI.map (fun c => solution.mk c (f c)) ++
          [solution.mk c' (f c')]).length = target := by
        rw [hmap, List.length_map]
        exact he
      rw [if_neg he, if_neg heS, hmap]
      exact legacy_push_children_coupling p f hev target cs (accI ++ [c'])
        g1

/-- When evaluation is pure, the legacy selection-variation loop computes
exactly the embedded image of the current selection-variation loop. -/
theorem legacy_variation_loop_coupling [LinearOrder F] [Inhabited I]
    [Inhabited F] (p : legacy.problem I F) (f : I → F)
    (hev : ∀ x g, p.evaluate x g = (f x, g))
    (pop : List (solution I F)) (target : Nat) :
    ∀ (fuel : Nat) (accI : List I) (g : urbg),
      legacy.variation_loop p.mutate p.evaluate p.recombine pop target fuel
          (accI.map (fun c => solution.mk c (f c))) g =
        (variation_loop p.mutate (legacy.to_single p).recombine pop target
            fuel accI g).map
          (fun q => (q.1.map (fun c => solution.mk c (f c)), q.2))
  | 0, accI, g => by
    by_cases hlt : accI.length < target
    · simp [legacy.variation_loop, variation_loop, hlt]
    · simp [legacy.variation_loop, variation_loop, hlt]
  | fuel + 1, accI, g => by
    by_cases hlt : accI.length < target
    · have hltS : (accI.map (fun c => solution.mk c (f c))).length <
          target := by
        rw [List.length_map]
        exact hlt
      rcases h1 : binary_tournament pop g with ⟨x1, g1⟩
      rcases h2 : binary_tournament pop g1 with ⟨x2, g2⟩
      rcases h3 : p.recombine x1 x2 g2 with ⟨⟨c1, c2⟩, g3⟩
      have h3S : (legacy.to_single p).recombine x1 x2 g2 = ([c1, c2], g3) :=
        by simp [legacy.to_single, h3]
      rcases h4 : push_children p.mutate target [c1, c2] accI g3 with
        ⟨accI', g4⟩
      have h4S : legacy.push_children p.mutate p.evaluate target [c1, c2]
          (accI.map (fun c => solution.mk c (f c))) g3 =
          (accI'.map (fun c => solution.mk c (f c)), g4) := by
        rw [legacy_push_children_coupling p f hev target [c1, c2] accI g3,
          h4]
      have ih := legacy_variation_loop_coupling p f hev pop target fuel
        accI' g4
      simp only [legacy.variation_loop, variation_loop, if_pos hlt,
        if_pos hltS, h1, h2, h3, h3S, h4, h4S]
      exact ih
    · have hltS : ¬ (accI.map (fun c => solution.mk c (f c))).length <
          target := by
        rw [List.length_map]
        exact hlt
      simp [legacy.variation_loop, variation_loop, hlt, hltS]

/-- Claim C10: for a legacy problem whose evaluation neither draws from nor
inspects the generator, the legacy per-child-evaluation iterate and the
current buffer-then-evaluate iterate (run through the single-evaluation
contract) coincide: same termination behaviour, same resulting population
contents and same final generator state. -/
theorem claim_C10 (I F : Type) [LinearOrder F] [Inhabited I] [Inhabited F] :
    ∀ (p : legacy.problem I F) (f : I → F),
      (∀ x g, p.evaluate x g = (f x, g)) →
      ∀ (k fuel : Nat) (st : algorithmState I F),
        iterate (.single (legacy.to_single p)) k fuel st =
          legacy.iterate p k fuel st := by
  intro p f hev k fuel st
  have hcoup := legacy_variation_loop_coupling p f hev st.population
    (st.population.length - k) fuel [] st.generator
  simp only [List.map_nil] at hcoup
  unfold legacy.iterate
  unfold iterate
  rcases hloop : variation_loop p.mutate (legacy.to_single p).recombine
      st.population (st.population.length - k) fuel [] st.generator with
    _ | ⟨buf, g1⟩
  · rw [hloop] at hcoup
    have hloop2 : variation_loop (any_problem.single
        (legacy.to_single p)).mutate (any_problem.single
        (legacy.to_single p)).recombine st.population
        (st.population.length - k) fuel [] st.generator = none := hloop
    simp [hloop2, hcoup]
  · rw [hloop] at hcoup
    have hloop2 : variation_loop (any_problem.single
        (legacy.to_single p)).mutate (any_problem.single
        (legacy.to_single p)).recombine st.population
        (st.population.length - k) fuel [] st.generator = some (buf, g1) :=
      hloop
    have hblen : buf.length = st.population.length - k :=
      variation_loop_exact p.mutate (legacy.to_single p).recombine
        st.population (st.population.length - k) fuel [] st.generator buf g1
        (by simp) hloop
    have hpure : evaluate_all (legacy.to_single p).evaluate buf g1 =
        (buf.map f, g1) :=
      evaluate_all_pure (legacy.to_single p).evaluate f hev buf g1
    have hep : evaluation_phase (any_problem.single (legacy.to_single p))
        buf st.population k g1 = (buf.map f, st.population, g1) := by
      simp [evaluation_phase, hpure]
    simp only [hloop2, hcoup, Option.map_some, hep]
    have hcond : ¬ (st.population.length ≠ st.population.length ∨
        buf.length ≠ st.population.length - k ∨
        (buf.map f).length ≠ st.population.length - k) := by
      push_neg
      exact ⟨rfl, hblen, by rw [List.length_map]; exact hblen⟩
    unfold finish_iterate
    rw [if_neg hcond]
    rw [zipWith_mk_map]
    simp

end LegacyEquivalence

theorem claim_C9_witness :
    ∃ out g', variation_loop mut_id rec_one
        ([⟨0, 0⟩] : List (solution Nat Nat)) 1 1 [] gW = some (out, g') ∧
      out.length = 1 :=
  claim_C9.1 Nat Nat mut_id rec_one [⟨0, 0⟩] 1 1 gW
    (fun a b g2 => by simp [rec_one]) (le_refl 1)

/-- A legacy problem with pure evaluation, for the concrete equivalence
run. -/
def lp_test : legacy.problem Nat Nat :=
  { mutate := fun x g => (2 * x, g)
    recombine := fun a b g => ((a + b, b + b), g)
    evaluate := fun x g => (x, g) }

theorem claim_C10_witness :
    iterate (.single (legacy.to_single lp_test)) 1 4 stW =
      legacy.iterate lp_test 1 4 stW :=
  claim_C10 Nat Nat lp_test (fun x => x) (fun _ _ => rfl) 1 4 stW
